import Mathlib

/-!
# Verification of the lotto ticket-generation engine

Shallow embedding of the `lotto_quick_pick` Rust crate (modules `error.rs`,
`newtypes.rs`, `probability.rs`, `ticket_key.rs`, `ticket_bitwise.rs`,
`ticket.rs`) and proofs about it.

Modelling conventions:
* Machine integers (`u8`, `usize`, `u64`, `u128`) are `Nat`; wrap-around and
  width limits are made explicit (`% 256`, comparisons against `2 ^ 64`,
  `2 ^ 128 - 1`) exactly where the Rust types impose them.
* Rust `Result` is `Except LottoError`; functions that can also panic
  (arithmetic under/overflow, out-of-range shift amounts, out-of-bounds
  indexing, failed `debug_assert!`s) return `Outcome`, whose `panic`
  constructor models the debug-build panic (the semantics exercised by the
  crate's own test suite).  The one exception is `BallRange.size`, whose `u8`
  overflow is modelled with wrapping (release semantics) so that `size` stays
  a plain `Nat`-valued function; the single input where this matters
  (`start = 0, end = 255`, where debug builds panic and release builds wrap
  to 0) is treated explicitly in the theorems below.
* The injected random source (`RandomNumberGenerator::gen_range_u8`) is
  modelled as a finite tape `List Nat` of draw results; each call consumes one
  entry (reduced `% 256`, since the trait returns `u8`).  An exhausted tape
  yields the `diverge` outcome, standing for a sampling loop that has not yet
  terminated.
* The attempt budget of `generate_unique_tickets` is computed in Rust from an
  `f64` ratio heuristic; the budget value is irrelevant to every claim proved
  here, so it is passed in as an explicit `maxAttempts : Nat` parameter.
-/

/-- `LottoError` from `error.rs` (field `stop` models Rust's `end`,
`matchCount`/`pickCount` model `match_count`/`pick_count`). -/
inductive LottoError where
  | InvalidRange (start stop : Nat)
  | PickExceedsRange (pick available : Nat)
  | ZeroGames
  | CalculationOverflow (operation : String)
  | InvalidMatchCount (matchCount pickCount : Nat)
  | TooManyUniqueGames (requested maximum : Nat)
  | UniqueGenerationFailed (requested generated : Nat)
  | IoError (msg : String)
  | ParseError (msg : String)
deriving DecidableEq, Repr

/-- Result of running a piece of Rust code that may return `Ok`, return a
typed error, panic (debug-build semantics for arithmetic errors, failed
`debug_assert!`s and out-of-bounds indexing), or keep looping because the
modelled random tape ran out. -/
inductive Outcome (α : Type) where
  | ok (val : α)
  | err (e : LottoError)
  | panic
  | diverge
deriving DecidableEq, Repr

/-- `BallRange` from `newtypes.rs`; the field `stop` models Rust's `end`
(a Lean keyword).  Both fields are `u8` values. -/
structure BallRange where
  start : Nat
  stop : Nat
deriving DecidableEq, Repr

/-- `BallRange::new`: fails unless `start < end`. -/
def BallRange.new (start stop : Nat) : Except LottoError BallRange :=
  if stop ≤ start then .error (.InvalidRange start stop)
  else .ok ⟨start, stop⟩

/-- `BallRange::size`: `(self.end.value() - self.start.value() + 1) as usize`.
The arithmetic happens in `u8`, hence the `% 256`: for `start = 0, end = 255`
the addition overflows (debug builds panic; release builds wrap to 0). -/
def BallRange.size (r : BallRange) : Nat :=
  (r.stop - r.start + 1) % 256

/-- `PickCount::new` from `newtypes.rs`; the validated wrapper is modelled as
the underlying `usize`. -/
def PickCount.new (value : Nat) (range : BallRange) : Except LottoError Nat :=
  if range.size < value then .error (.PickExceedsRange value range.size)
  else if value = 0 then .error (.PickExceedsRange 0 range.size)
  else .ok value

/-- `GameCount::new` from `newtypes.rs`. -/
def GameCount.new (value : Nat) : Except LottoError Nat :=
  if value = 0 then .error .ZeroGames
  else .ok value

/-- `Ticket` from `newtypes.rs`: a list of ball numbers (`u8` values). -/
structure Ticket where
  balls : List Nat
deriving DecidableEq, Repr

/-- Modelled from the spec: `Ticket::from_sorted` is called by
`generate_unique_tickets` in `ticket.rs` but its definition is not part of the
sources; per §4.4 the "final conversion maps each distinct key back to a
canonical sorted ticket", and the call site's comment says the input is
already sorted, so the constructor takes the ball list as is (no re-sort). -/
def Ticket.from_sorted (balls : List Nat) : Ticket :=
  ⟨balls⟩

/-- The largest value of Rust's `u128`. -/
def U128_MAX : Nat := 2 ^ 128 - 1

/-- `u128::checked_mul`: `none` models overflow past 128 bits. -/
def checked_mul_u128 (a b : Nat) : Option Nat :=
  if a * b ≤ U128_MAX then some (a * b) else none

/-- `u128::checked_div`: `none` only on division by zero. -/
def checked_div_u128 (a b : Nat) : Option Nat :=
  if b = 0 then none else some (a / b)

/-- The multiply-then-divide loop of `combination` in `probability.rs`:
`for i in 0..k { result = result.checked_mul(n - i)?; result = result.checked_div(i + 1)?; }`.
The loop `for i in 0..kr` is expressed structurally by the remaining iteration
count `fuel = kr - i`. -/
def combination_loop (n kr : Nat) (i result : Nat) : Nat → Except LottoError Nat
  | 0 => .ok result
  | fuel + 1 =>
    match checked_mul_u128 result (n - i) with
    | none =>
      .error (.CalculationOverflow
        ("combination C(" ++ toString n ++ "," ++ toString kr ++
          ") multiplication overflow at iteration " ++ toString i))
    | some r1 =>
      match checked_div_u128 r1 (i + 1) with
      | none =>
        .error (.CalculationOverflow
          ("combination C(" ++ toString n ++ "," ++ toString kr ++
            ") division by zero at iteration " ++ toString i))
      | some r2 => combination_loop n kr (i + 1) r2 fuel

/-- `combination(n, k)` from `probability.rs`. -/
def combination (n k : Nat) : Except LottoError Nat :=
  if n < k then .ok 0
  else if k = 0 ∨ k = n then .ok 1
  else
    combination_loop n (min k (n - k)) 0 1 (min k (n - k))

/-- `calculate_probability` from `probability.rs`.  The subtraction
`total_balls - pick_count` is unchecked `usize` arithmetic: when
`pick_count > total_balls` it underflows, which is a panic in debug builds. -/
def calculate_probability (total_balls pick_count match_count : Nat) :
    Outcome (Nat × Nat) :=
  if pick_count < match_count then
    .err (.InvalidMatchCount match_count pick_count)
  else
    match combination total_balls pick_count with
    | .error e => .err e
    | .ok total_outcomes =>
      match combination pick_count match_count with
      | .error e => .err e
      | .ok ways_to_match =>
        if total_balls < pick_count then .panic
        else
          match combination (total_balls - pick_count) (pick_count - match_count) with
          | .error e => .err e
          | .ok ways_to_miss =>
            match checked_mul_u128 ways_to_match ways_to_miss with
            | none =>
              .err (.CalculationOverflow
                ("favorable outcomes: " ++ toString ways_to_match ++ " * " ++
                  toString ways_to_miss))
            | some favorable_outcomes => .ok (favorable_outcomes, total_outcomes)

/-- `BitwiseStrategy` from `ticket_bitwise.rs`. -/
inductive BitwiseStrategy where
  | U64
  | U128
  | VecU64
deriving DecidableEq, Repr

/-- `BitwiseStrategy::select`: chosen strictly by `range.size()`. -/
def BitwiseStrategy.select (range : BallRange) : Except LottoError BitwiseStrategy :=
  let size := range.size
  if size ≤ 64 then .ok .U64
  else if size ≤ 128 then .ok .U128
  else .ok .VecU64

/-- `TicketKey` from `ticket_key.rs`.  The `u64`/`u128` payloads are `Nat`s
kept below `2 ^ 64` / `2 ^ 128` by construction. -/
inductive TicketKey where
  | U64 (bitmap : Nat)
  | U128 (bitmap : Nat)
  | VecU64 (bitmap : List Nat)
deriving DecidableEq, Repr

/-- The set bit positions of a `width`-bit word, in ascending order
(`width` is 64 for `u64` words, 128 for `u128`). -/
def set_bits (width bitmap : Nat) : List Nat :=
  (List.range width).filter (fun i => bitmap.testBit i)

/-- `count_ones` of a `width`-bit word. -/
def count_ones (width bitmap : Nat) : Nat :=
  (set_bits width bitmap).length

/-- The ascending offsets of all set bits of a `Vec<u64>` bitmap, the word at
index `idx` contributing offsets `idx * 64 + bit` (`to_balls`, `VecU64` arm). -/
def vec_set_offsets : List Nat → Nat → List Nat
  | [], _ => []
  | w :: ws, idx =>
    (set_bits 64 w).map (fun bit => idx * 64 + bit) ++ vec_set_offsets ws (idx + 1)

/-- Maps bit offsets to ball values `min + (offset as u8)` as in
`TicketKey::to_balls`: the `as u8` cast truncates (`% 256`), and the `u8`
addition panics on overflow in debug builds. -/
def ball_values (min : Nat) : List Nat → Outcome (List Nat)
  | [] => .ok []
  | offset :: rest =>
    let v := offset % 256
    if 256 ≤ min + v then .panic
    else
      match ball_values min rest with
      | .ok balls => .ok ((min + v) :: balls)
      | .err e => .err e
      | .panic => .panic
      | .diverge => .diverge

/-- `TicketKey::to_balls` from `ticket_key.rs`: iterates set bits in ascending
offset order and maps each to `range.start + offset`. -/
def TicketKey.to_balls (key : TicketKey) (range : BallRange) : Outcome (List Nat) :=
  let min := range.start
  match key with
  | .U64 bitmap => ball_values min (set_bits 64 bitmap)
  | .U128 bitmap => ball_values min (set_bits 128 bitmap)
  | .VecU64 bitmap => ball_values min (vec_set_offsets bitmap 0)

/-- The single-word accumulation loop of `TicketKey::from_balls`
(`u64` arm with `width = 64`, `u128` arm with `width = 128`):
`bitmap |= 1 << (ball - min)`.  The `u8` subtraction underflows (panic) when
`ball < min`, and a shift by `width` or more is a panic. -/
def bitmap_from_balls (width min : Nat) : Nat → List Nat → Outcome Nat
  | bitmap, [] => .ok bitmap
  | bitmap, ball :: rest =>
    if ball < min then .panic
    else
      let offset := ball - min
      if width ≤ offset then .panic
      else bitmap_from_balls width min (bitmap ||| 2 ^ offset) rest

/-- The `Vec<u64>` accumulation loop of `TicketKey::from_balls`:
`bitmap[offset / 64] |= 1 << (offset % 64)`; an index at or past the vector
length is an out-of-bounds panic. -/
def vec_from_balls (min : Nat) : List Nat → List Nat → Outcome (List Nat)
  | bitmap, [] => .ok bitmap
  | bitmap, ball :: rest =>
    if ball < min then .panic
    else
      let offset := ball - min
      let idx := offset / 64
      let bit := offset % 64
      if idx < bitmap.length then
        vec_from_balls min (bitmap.set idx (bitmap.getD idx 0 ||| 2 ^ bit)) rest
      else .panic

/-- `TicketKey::from_balls` from `ticket_key.rs`: representation chosen by
`range.size()` (`≤ 64` → `U64`, `≤ 128` → `U128`, otherwise `VecU64` with
`size.div_ceil(64)` words). -/
def TicketKey.from_balls (balls : List Nat) (range : BallRange) : Outcome TicketKey :=
  let size := range.size
  let min := range.start
  if size ≤ 64 then
    match bitmap_from_balls 64 min 0 balls with
    | .ok b => .ok (.U64 b)
    | .err e => .err e
    | .panic => .panic
    | .diverge => .diverge
  else if size ≤ 128 then
    match bitmap_from_balls 128 min 0 balls with
    | .ok b => .ok (.U128 b)
    | .err e => .err e
    | .panic => .panic
    | .diverge => .diverge
  else
    let vec_size := (size + 63) / 64
    match vec_from_balls min (List.replicate vec_size 0) balls with
    | .ok b => .ok (.VecU64 b)
    | .err e => .err e
    | .panic => .panic
    | .diverge => .diverge

/-- `TicketKey::count_balls` from `ticket_key.rs`. -/
def TicketKey.count_balls : TicketKey → Nat
  | .U64 bitmap => count_ones 64 bitmap
  | .U128 bitmap => count_ones 128 bitmap
  | .VecU64 bitmap => (bitmap.map (count_ones 64)).sum

/-- The single-word sampling loop shared (verbatim, up to the word width:
64 for `generate_ticketkey_u64_bitmap`, 128 for `generate_ticketkey_u128_bitmap`)
by the fixed-width generators in `ticket_bitwise.rs`:
`while picked_count < picks { let v = rng.gen_range_u8(min, max); ... }`.
Each draw consumes one tape entry; the `u8` subtraction `v - min` underflows
(panic) when `v < min`, and `1 << pos` with `pos ≥ width` is a panic. -/
def bitmap_sample_loop (width min picks : Nat) :
    Nat → Nat → List Nat → Outcome (Nat × List Nat)
  | bitmap, picked_count, tape =>
    if picks ≤ picked_count then .ok (bitmap, tape)
    else
      match tape with
      | [] => .diverge
      | t :: rest =>
        let v := t % 256
        if v < min then .panic
        else
          let pos := v - min
          if width ≤ pos then .panic
          else if bitmap.testBit pos then
            bitmap_sample_loop width min picks bitmap picked_count rest
          else
            bitmap_sample_loop width min picks (bitmap ||| 2 ^ pos) (picked_count + 1) rest

/-- `generate_ticketkey_u64_bitmap` from `ticket_bitwise.rs`: size check,
sampling loop, then the two `debug_assert`s (bit count, and no bits outside
`valid_mask`; `!valid_mask` is the `u64` complement, modelled by xor against
`2 ^ 64 - 1`). -/
def generate_ticketkey_u64_bitmap (range : BallRange) (count : Nat)
    (tape : List Nat) : Outcome (TicketKey × List Nat) :=
  let min := range.start
  let max := range.stop
  let picks := count
  if 64 < range.size then .err (.InvalidRange min max)
  else
    match bitmap_sample_loop 64 min picks 0 0 tape with
    | .ok (bitmap, rest) =>
      let actual_count := count_ones 64 bitmap
      if actual_count ≠ picks then .panic
      else
        let valid_mask := if range.size = 64 then 2 ^ 64 - 1 else 2 ^ range.size - 1
        if bitmap &&& ((2 ^ 64 - 1) ^^^ valid_mask) ≠ 0 then .panic
        else .ok (.U64 bitmap, rest)
    | .err e => .err e
    | .panic => .panic
    | .diverge => .diverge

/-- `generate_ticketkey_u128_bitmap` from `ticket_bitwise.rs`. -/
def generate_ticketkey_u128_bitmap (range : BallRange) (count : Nat)
    (tape : List Nat) : Outcome (TicketKey × List Nat) :=
  let min := range.start
  let max := range.stop
  let picks := count
  if 128 < range.size then .err (.InvalidRange min max)
  else
    match bitmap_sample_loop 128 min picks 0 0 tape with
    | .ok (bitmap, rest) =>
      let actual_count := count_ones 128 bitmap
      if actual_count ≠ picks then .panic
      else
        let valid_mask := if range.size = 128 then 2 ^ 128 - 1 else 2 ^ range.size - 1
        if bitmap &&& ((2 ^ 128 - 1) ^^^ valid_mask) ≠ 0 then .panic
        else .ok (.U128 bitmap, rest)
    | .err e => .err e
    | .panic => .panic
    | .diverge => .diverge

/-- The `Vec<u64>` sampling loop of `generate_ticketkey_vec_bitmap`:
`bitmap[word_index]` panics when `word_index` is out of bounds. -/
def vec_sample_loop (min picks : Nat) :
    List Nat → Nat → List Nat → Outcome (List Nat × List Nat)
  | bitmap, picked_count, tape =>
    if picks ≤ picked_count then .ok (bitmap, tape)
    else
      match tape with
      | [] => .diverge
      | t :: rest =>
        let v := t % 256
        if v < min then .panic
        else
          let pos := v - min
          let word_index := pos / 64
          let bit_offset := pos % 64
          let mask := 2 ^ bit_offset
          if word_index < bitmap.length then
            let word := bitmap.getD word_index 0
            if word &&& mask ≠ 0 then
              vec_sample_loop min picks bitmap picked_count rest
            else
              vec_sample_loop min picks (bitmap.set word_index (word ||| mask))
                (picked_count + 1) rest
          else .panic

/-- `generate_ticketkey_vec_bitmap` from `ticket_bitwise.rs`:
`words_needed = range_size.div_ceil(64)` words, sampling loop, then the
`debug_assert`s (total bit count; no bits outside the valid range in the last
word when `range_size % 64 > 0`). -/
def generate_ticketkey_vec_bitmap (range : BallRange) (count : Nat)
    (tape : List Nat) : Outcome (TicketKey × List Nat) :=
  let min := range.start
  let picks := count
  let range_size := range.size
  let words_needed := (range_size + 63) / 64
  match vec_sample_loop min picks (List.replicate words_needed 0) 0 tape with
  | .ok (bitmap, rest) =>
    let actual_count := (bitmap.map (count_ones 64)).sum
    if actual_count ≠ picks then .panic
    else
      let remaining_bits := range_size % 64
      if 0 < remaining_bits then
        if words_needed - 1 < bitmap.length then
          let last_word := bitmap.getD (words_needed - 1) 0
          let last_mask := 2 ^ remaining_bits - 1
          if last_word &&& ((2 ^ 64 - 1) ^^^ last_mask) ≠ 0 then .panic
          else .ok (.VecU64 bitmap, rest)
        else .panic
      else .ok (.VecU64 bitmap, rest)
  | .err e => .err e
  | .panic => .panic
  | .diverge => .diverge

/-- The strategy dispatch inside the sampling loop of
`generate_unique_tickets` in `ticket.rs`. -/
def generate_ticketkey_for (strategy : BitwiseStrategy) (range : BallRange)
    (pick : Nat) (tape : List Nat) : Outcome (TicketKey × List Nat) :=
  match strategy with
  | .U64 => generate_ticketkey_u64_bitmap range pick tape
  | .U128 => generate_ticketkey_u128_bitmap range pick tape
  | .VecU64 => generate_ticketkey_vec_bitmap range pick tape

/-- The `while ticket_keys.len() < game_count` loop of
`generate_unique_tickets`.  The `HashSet` of keys is a duplicate-free list and
`HashSet::insert` is `List.insert`; `budget` is the remaining attempt count
`max_attempts - attempts`, so the guard `attempts >= max_attempts` is
`budget = 0`. -/
def unique_sample_loop (range : BallRange) (pick game_count : Nat)
    (strategy : BitwiseStrategy) :
    List TicketKey → List Nat → Nat → Outcome (List TicketKey)
  | ticket_keys, tape, budget =>
    if game_count ≤ ticket_keys.length then .ok ticket_keys
    else
      match budget with
      | 0 => .err (.UniqueGenerationFailed game_count ticket_keys.length)
      | b + 1 =>
        match generate_ticketkey_for strategy range pick tape with
        | .ok (key, rest) =>
          unique_sample_loop range pick game_count strategy
            (ticket_keys.insert key) rest b
        | .err e => .err e
        | .panic => .panic
        | .diverge => .diverge

/-- The final conversion of `generate_unique_tickets`:
`ticket_keys.into_iter().map(|key| Ticket::from_sorted(key.to_balls(range))).collect()`. -/
def tickets_from_keys (keys : List TicketKey) (range : BallRange) :
    Outcome (List Ticket) :=
  match keys with
  | [] => .ok []
  | k :: ks =>
    match k.to_balls range with
    | .ok balls =>
      match tickets_from_keys ks range with
      | .ok ts => .ok (Ticket.from_sorted balls :: ts)
      | .err e => .err e
      | .panic => .panic
      | .diverge => .diverge
    | .err e => .err e
    | .panic => .panic
    | .diverge => .diverge

/-- `generate_unique_tickets` from `ticket.rs`.  `max_attempts` is a
parameter: the source derives it from `game_count` through an `f64` ratio
heuristic (floating point, outside this embedding); every property proved
below holds for all values of `max_attempts`. -/
def generate_unique_tickets (tape : List Nat) (range : BallRange)
    (pick game_count max_attempts : Nat) : Outcome (List Ticket) :=
  match combination range.size pick with
  | .error e => .err e
  | .ok max_possible =>
    if max_possible < game_count then
      .err (.TooManyUniqueGames game_count max_possible)
    else
      match BitwiseStrategy.select range with
      | .error e => .err e
      | .ok strategy =>
        match unique_sample_loop range pick game_count strategy [] tape max_attempts with
        | .ok ticket_keys => tickets_from_keys ticket_keys range
        | .err e => .err e
        | .panic => .panic
        | .diverge => .diverge

/-- Postcondition of a successful `u64` generation: word below `2 ^ 64`, all
set bits below `range.size()`, exactly `picks` set bits. -/
def GoodU64 (r : BallRange) (picks b : Nat) : Prop :=
  b < 2 ^ 64 ∧ (∀ i, b.testBit i = true → i < r.size) ∧ count_ones 64 b = picks

/-- Postcondition of a successful `u128` generation. -/
def GoodU128 (r : BallRange) (picks b : Nat) : Prop :=
  b < 2 ^ 128 ∧ (∀ i, b.testBit i = true → i < r.size) ∧ count_ones 128 b = picks

/-- Postcondition of a successful `Vec<u64>` generation. -/
def GoodVec (r : BallRange) (picks : Nat) (ws : List Nat) : Prop :=
  ws.length = (r.size + 63) / 64 ∧ (∀ w ∈ ws, w < 2 ^ 64) ∧
  (∀ j bit, (ws.getD j 0).testBit bit = true → j * 64 + bit < r.size) ∧
  (ws.map (count_ones 64)).sum = picks

/-- A key produced by the generator selected for `strategy`. -/
def GoodKey (r : BallRange) (picks : Nat) : BitwiseStrategy → TicketKey → Prop
  | .U64, .U64 b => GoodU64 r picks b
  | .U128, .U128 b => GoodU128 r picks b
  | .VecU64, .VecU64 ws => GoodVec r picks ws
  | _, _ => False

/-- The ball list of a key whose `to_balls` succeeds (proof-side helper). -/
def decode_balls (k : TicketKey) (r : BallRange) : List Nat :=
  match k.to_balls r with
  | .ok l => l
  | .err _ => []
  | .panic => []
  | .diverge => []

/-! ## Lemmas and claim theorems about `combination` and `calculate_probability` -/

/-- Each division step of the multiply-then-divide loop is exact: the running
product `C(n,i) * (n-i)` is a multiple of the divisor `i + 1`. -/
theorem choose_mul_sub_mod (n i : Nat) :
    Nat.choose n i * (n - i) % (i + 1) = 0 := by
  rw [← Nat.choose_succ_right_eq]
  exact Nat.mul_mod_left _ _

/-- The quotient produced at iteration `i` is the next binomial coefficient. -/
theorem choose_mul_sub_div (n i : Nat) :
    Nat.choose n i * (n - i) / (i + 1) = Nat.choose n (i + 1) := by
  rw [← Nat.choose_succ_right_eq]
  exact Nat.mul_div_cancel _ (Nat.succ_pos i)

/-- If no intermediate product exceeds `U128_MAX`, the loop carries the
invariant `result = C(n, i)` through to `C(n, kr)`. -/
theorem combination_loop_ok (n kr : Nat) : ∀ fuel i,
    i + fuel = kr →
    (∀ j, i ≤ j → j < kr → Nat.choose n j * (n - j) ≤ U128_MAX) →
    combination_loop n kr i (Nat.choose n i) fuel = .ok (Nat.choose n kr) := by
  intro fuel
  induction fuel with
  | zero =>
    intro i hi _
    have : i = kr := by omega
    simp [combination_loop, this]
  | succ f ih =>
    intro i hi hbound
    have hb : Nat.choose n i * (n - i) ≤ U128_MAX :=
      hbound i (Nat.le_refl i) (by omega)
    have hmul : checked_mul_u128 (Nat.choose n i) (n - i) =
        some (Nat.choose n i * (n - i)) := by
      unfold checked_mul_u128; rw [if_pos hb]
    have hdiv : checked_div_u128 (Nat.choose n i * (n - i)) (i + 1) =
        some (Nat.choose n (i + 1)) := by
      unfold checked_div_u128
      rw [if_neg (Nat.succ_ne_zero i), choose_mul_sub_div]
    unfold combination_loop
    simp only [hmul, hdiv]
    exact ih (i + 1) (by omega) (fun j h1 h2 => hbound j (by omega) h2)

/-- If some intermediate product would exceed `U128_MAX`, the loop stops with
a `CalculationOverflow` error. -/
theorem combination_loop_overflow (n kr : Nat) : ∀ fuel i,
    i + fuel = kr →
    (∃ j, i ≤ j ∧ j < kr ∧ U128_MAX < Nat.choose n j * (n - j)) →
    ∃ msg, combination_loop n kr i (Nat.choose n i) fuel =
      .error (.CalculationOverflow msg) := by
  intro fuel
  induction fuel with
  | zero =>
    intro i hi h
    obtain ⟨j, h1, h2, _⟩ := h
    omega
  | succ f ih =>
    intro i hi h
    obtain ⟨j, hj1, hj2, hj3⟩ := h
    by_cases hover : U128_MAX < Nat.choose n i * (n - i)
    · have hmul : checked_mul_u128 (Nat.choose n i) (n - i) = none := by
        unfold checked_mul_u128; rw [if_neg (by omega)]
      unfold combination_loop
      simp only [hmul]
      exact ⟨_, rfl⟩
    · have hb : Nat.choose n i * (n - i) ≤ U128_MAX := by omega
      have hji : i ≠ j := by
        intro hij; rw [← hij] at hj3; omega
      have hmul : checked_mul_u128 (Nat.choose n i) (n - i) =
          some (Nat.choose n i * (n - i)) := by
        unfold checked_mul_u128; rw [if_pos hb]
      have hdiv : checked_div_u128 (Nat.choose n i * (n - i)) (i + 1) =
          some (Nat.choose n (i + 1)) := by
        unfold checked_div_u128
        rw [if_neg (Nat.succ_ne_zero i), choose_mul_sub_div]
      unfold combination_loop
      simp only [hmul, hdiv]
      exact ih (i + 1) (by omega) ⟨j, by omega, hj2, hj3⟩

/-- Whatever `combination` returns through `Ok` is the exact binomial
coefficient. -/
theorem combination_ok_eq_choose (n k v : Nat)
    (h : combination n k = .ok v) : v = Nat.choose n k := by
  unfold combination at h
  by_cases h1 : n < k
  · rw [if_pos h1] at h
    cases h
    exact (Nat.choose_eq_zero_of_lt h1).symm
  · rw [if_neg h1] at h
    by_cases h2 : k = 0 ∨ k = n
    · rw [if_pos h2] at h
      cases h
      rcases h2 with h2 | h2 <;> simp [h2]
    · rw [if_neg h2] at h
      push_neg at h2
      have hk0 : 0 < k := Nat.pos_of_ne_zero h2.1
      have hkn : k < n := by omega
      by_cases hall : ∀ j, j < min k (n - k) → Nat.choose n j * (n - j) ≤ U128_MAX
      · have hloop := combination_loop_ok n (min k (n - k)) (min k (n - k)) 0
          (by omega) (fun j _ h2 => hall j h2)
        rw [Nat.choose_zero_right] at hloop
        rw [hloop] at h
        cases h
        rcases Nat.le_total k (n - k) with hm | hm
        · rw [Nat.min_eq_left hm]
        · rw [Nat.min_eq_right hm, Nat.choose_symm (Nat.le_of_lt hkn)]
      · push_neg at hall
        obtain ⟨j, hj1, hj2⟩ := hall
        obtain ⟨msg, hmsg⟩ := combination_loop_overflow n (min k (n - k))
          (min k (n - k)) 0 (by omega) ⟨j, Nat.zero_le j, hj1, hj2⟩
        rw [Nat.choose_zero_right] at hmsg
        rw [hmsg] at h
        cases h


/-- C1: `combination(n, k)` returns `Ok(0)` when `k > n` and `Ok(1)` when
`k = 0` or `k = n`; any value it returns through `Ok` equals the binomial
coefficient `n! / (k! * (n-k)!)` exactly; every division of the iterative
multiply-then-divide loop is exact (the running product `C(n,i) * (n-i)` is a
multiple of the divisor `i+1`); and when an intermediate product would exceed
the 128-bit integer it returns a `CalculationOverflow` error rather than a
truncated value. -/
theorem C1_combination_exact (n k : Nat) :
    (n < k → combination n k = Except.ok 0) ∧
    ((k = 0 ∨ k = n) → combination n k = Except.ok 1) ∧
    (∀ v, combination n k = Except.ok v → v = Nat.choose n k) ∧
    (∀ i, Nat.choose n i * (n - i) % (i + 1) = 0) ∧
    ((∃ j, j < min k (n - k) ∧ U128_MAX < Nat.choose n j * (n - j)) →
      ∃ msg, combination n k = Except.error (LottoError.CalculationOverflow msg)) := by
  refine ⟨?_, ?_, combination_ok_eq_choose n k, fun i => choose_mul_sub_mod n i, ?_⟩
  · intro h
    unfold combination
    rw [if_pos h]
  · intro h
    have hnk : ¬ n < k := by rcases h with h | h <;> omega
    unfold combination
    rw [if_neg hnk, if_pos h]
  · rintro ⟨j, hj1, hj2⟩
    have h1 : ¬ n < k := by omega
    have h2 : ¬ (k = 0 ∨ k = n) := by
      push_neg
      constructor <;> omega
    unfold combination
    rw [if_neg h1, if_neg h2]
    have hov := combination_loop_overflow n (min k (n - k)) (min k (n - k)) 0
      (by omega) ⟨j, Nat.zero_le j, hj1, hj2⟩
    rw [Nat.choose_zero_right] at hov
    exact hov

/-- Concrete instantiation of `C1_combination_exact`. -/
theorem C1_combination_exact_witness :
    combination 10 11 = Except.ok 0 ∧
    combination 10 10 = Except.ok 1 ∧
    (50063860 : Nat) = Nat.choose 60 6 :=
  ⟨(C1_combination_exact 10 11).1 (by decide),
   (C1_combination_exact 10 10).2.1 (Or.inr rfl),
   (C1_combination_exact 60 6).2.2.1 50063860 (by rfl)⟩

/-- C5 (code bug): `calculate_probability(3, 5, 2)` — a pick count exceeding
the total — reaches the unchecked `usize` subtraction
`total_balls - pick_count`, which underflows: a panic, not a typed `Result`. -/
theorem C5_calculate_probability_panics :
    calculate_probability 3 5 2 = Outcome.panic := by rfl

/-- C6: `calculate_probability` fails with `InvalidMatchCount` whenever
`match > pick`; whenever `match ≤ pick ≤ total` and no overflow occurs (the
three `combination` calls succeed and the final product fits in 128 bits) it
returns `(C(pick, match) * C(total-pick, pick-match), C(total, pick))`; and
the two concrete values from the spec hold. -/
theorem C6_calculate_probability_exact (total_balls pick_count match_count : Nat) :
    (pick_count < match_count →
      calculate_probability total_balls pick_count match_count =
        Outcome.err (LottoError.InvalidMatchCount match_count pick_count)) ∧
    (match_count ≤ pick_count → pick_count ≤ total_balls →
      ∀ a b t, combination pick_count match_count = Except.ok a →
        combination (total_balls - pick_count) (pick_count - match_count) = Except.ok b →
        combination total_balls pick_count = Except.ok t →
        a * b ≤ U128_MAX →
        calculate_probability total_balls pick_count match_count =
          Outcome.ok (Nat.choose pick_count match_count *
              Nat.choose (total_balls - pick_count) (pick_count - match_count),
            Nat.choose total_balls pick_count)) ∧
    calculate_probability 10 3 2 = Outcome.ok (21, 120) ∧
    calculate_probability 60 6 6 = Outcome.ok (1, 50063860) := by
  refine ⟨?_, ?_, by rfl, by rfl⟩
  · intro h
    unfold calculate_probability
    rw [if_pos h]
  · intro hm hp a b t ha hb ht hmul
    have hmc : checked_mul_u128 a b = some (a * b) := by
      unfold checked_mul_u128
      rw [if_pos hmul]
    unfold calculate_probability
    rw [if_neg (by omega)]
    simp only [ht, ha]
    rw [if_neg (by omega)]
    simp only [hb, hmc]
    rw [combination_ok_eq_choose _ _ _ ha, combination_ok_eq_choose _ _ _ hb,
      combination_ok_eq_choose _ _ _ ht]

/-- Concrete instantiation of `C6_calculate_probability_exact`. -/
theorem C6_calculate_probability_exact_witness :
    calculate_probability 10 3 2 =
      Outcome.ok (Nat.choose 3 2 * Nat.choose (10 - 3) (3 - 2), Nat.choose 10 3) ∧
    calculate_probability 60 6 7 =
      Outcome.err (LottoError.InvalidMatchCount 7 6) :=
  ⟨(C6_calculate_probability_exact 10 3 2).2.1 (by decide) (by decide)
      3 7 120 (by rfl) (by rfl) (by rfl) (by decide),
   (C6_calculate_probability_exact 60 6 7).1 (by decide)⟩

/-! ## Claim theorems about `BallRange.size` and strategy selection -/

/-- C4 (code bug): `BallRange::new(0, 255)` succeeds (`0 < 255`), but `size()`
computes `end - start + 1` in `u8`, so `255 + 1` overflows: the wrapped value
is 0, not the mathematical size 256, and the documented invariant `size ≥ 2`
fails. -/
theorem C4_size_full_range_overflow :
    BallRange.new 0 255 = Except.ok ⟨0, 255⟩ ∧
    BallRange.size ⟨0, 255⟩ = 0 ∧
    ¬ 2 ≤ BallRange.size ⟨0, 255⟩ :=
  ⟨rfl, rfl, by decide⟩

/-- For every other admissible pair of `u8` endpoints — any valid range except
`(0, 255)` — `size` does evaluate to `end - start + 1 ≥ 2` as the spec says;
the failure of C4 is confined to the single overflowing pair. -/
theorem size_eq_of_no_overflow (r : BallRange) (h1 : r.start < r.stop)
    (_h2 : r.stop ≤ 255) (h3 : r.stop - r.start < 255) :
    r.size = r.stop - r.start + 1 ∧ 2 ≤ r.size := by
  unfold BallRange.size
  constructor
  · apply Nat.mod_eq_of_lt
    omega
  · rw [Nat.mod_eq_of_lt (by omega)]
    omega

/-- C7: strategy selection is a pure function of `range.size()` alone
(never of the absolute endpoint values), with the boundary rule
`size ≤ 64 → U64`, `65 ≤ size ≤ 128 → U128`, `size > 128 → VecU64`, and the
five concrete boundary instances from the spec (sizes 64, 65, 128, 129 and
the range 200–255 of size 56). -/
theorem C7_strategy_selection (r r2 : BallRange) :
    (BitwiseStrategy.select r = .ok .U64 ↔ r.size ≤ 64) ∧
    (BitwiseStrategy.select r = .ok .U128 ↔ 65 ≤ r.size ∧ r.size ≤ 128) ∧
    (BitwiseStrategy.select r = .ok .VecU64 ↔ 128 < r.size) ∧
    (r.size = r2.size → BitwiseStrategy.select r = BitwiseStrategy.select r2) ∧
    BitwiseStrategy.select ⟨1, 64⟩ = .ok .U64 ∧
    BitwiseStrategy.select ⟨0, 64⟩ = .ok .U128 ∧
    BitwiseStrategy.select ⟨0, 127⟩ = .ok .U128 ∧
    BitwiseStrategy.select ⟨0, 128⟩ = .ok .VecU64 ∧
    BitwiseStrategy.select ⟨200, 255⟩ = .ok .U64 := by
  have hsel : BitwiseStrategy.select r =
      if r.size ≤ 64 then .ok .U64
      else if r.size ≤ 128 then .ok .U128
      else .ok .VecU64 := rfl
  refine ⟨?_, ?_, ?_, ?_, by rfl, by rfl, by rfl, by rfl, by rfl⟩
  · rw [hsel]
    split_ifs with h1 h2 <;> simp <;> omega
  · rw [hsel]
    split_ifs with h1 h2 <;> simp <;> omega
  · rw [hsel]
    split_ifs with h1 h2 <;> simp <;> omega
  · intro h
    simp only [BitwiseStrategy.select, h]

/-- Concrete instantiation of `C7_strategy_selection`: two ranges with very
different absolute values but equal size select the same strategy. -/
theorem C7_strategy_selection_witness :
    BitwiseStrategy.select ⟨1, 60⟩ = BitwiseStrategy.select ⟨196, 255⟩ :=
  (C7_strategy_selection ⟨1, 60⟩ ⟨196, 255⟩).2.2.2.1 (by decide)

/-! ## Claim theorems about the feasibility check and the size-check escapes -/

/-- C3: when the requested game count exceeds
`combination(range.size(), pick)`, `generate_unique_tickets` fails with the
`TooManyUniqueGames` error carrying both the requested and the maximum count —
and it does so for every random tape, including the empty one, so the random
source is never invoked. -/
theorem C3_too_many_games_fails_before_sampling
    (s e p g max_attempts m : Nat) (r : BallRange) (pick game_count : Nat)
    (_hr : BallRange.new s e = Except.ok r)
    (_hp : PickCount.new p r = Except.ok pick)
    (_hg : GameCount.new g = Except.ok game_count)
    (hm : combination r.size pick = Except.ok m)
    (hgt : m < game_count) :
    ∀ tape, generate_unique_tickets tape r pick game_count max_attempts =
      Outcome.err (LottoError.TooManyUniqueGames game_count m) := by
  intro tape
  unfold generate_unique_tickets
  simp only [hm]
  rw [if_pos hgt]

/-- Concrete instantiation of `C3_too_many_games_fails_before_sampling`:
`C(5, 3) = 10`, so 11 games fail immediately, even with an empty tape. -/
theorem C3_too_many_games_witness :
    generate_unique_tickets [] ⟨1, 5⟩ 3 11 1100 =
      Outcome.err (LottoError.TooManyUniqueGames 11 10) :=
  C3_too_many_games_fails_before_sampling 1 5 3 11 1100 10 ⟨1, 5⟩ 3 11
    (by rfl) (by rfl) (by rfl) (by rfl) (by decide) []

/-- C8 (code bug): the valid range `0–255` has true size
`255 - 0 + 1 = 256`, exceeding both the 64- and the 128-bit word width, yet
both fixed-width generators accept it — `size()` wraps to 0, so the guards
`size > 64` / `size > 128` do not fire — and they go on to consume the random
tape instead of returning `InvalidRange` (under debug semantics they then die
in the out-of-range-bits assertion; a draw with offset ≥ 64 panics at the
shift itself). -/
theorem C8_full_range_escapes_size_checks :
    BallRange.new 0 255 = Except.ok ⟨0, 255⟩ ∧
    (255 : Nat) - 0 + 1 = 256 ∧
    BallRange.size ⟨0, 255⟩ = 0 ∧
    generate_ticketkey_u64_bitmap ⟨0, 255⟩ 1 [0] = Outcome.panic ∧
    generate_ticketkey_u128_bitmap ⟨0, 255⟩ 1 [0] = Outcome.panic :=
  ⟨rfl, rfl, rfl, rfl, rfl⟩

/-- C9 (code bug): for the valid range `0–255` and the ball list `[64]`
(non-empty, distinct, within the range), `from_balls` selects the `U64`
representation because `size()` wraps to 0 (≤ 64) and then shifts `1u64` by
offset `64 - 0 = 64`, the full word width: a panic in debug builds (release
builds mask the shift to bit 0, so the round trip returns `[0] ≠ [64]`). -/
theorem C9_roundtrip_breaks_on_full_range :
    BallRange.new 0 255 = Except.ok ⟨0, 255⟩ ∧
    TicketKey.from_balls [64] ⟨0, 255⟩ = Outcome.panic :=
  ⟨rfl, rfl⟩

/-- C10 (code bug): even with a well-behaved random source (every draw inside
`[low, high]`), the generators violate the claimed in-bounds invariants on
the full range `0–255`, which all their size checks accept: the `Vec<u64>`
path allocates `size().div_ceil(64) = 0` words and indexes `bitmap[0]` out of
bounds on the very first draw, and the `u64` path shifts by the full word
width on the in-range draw 64. -/
theorem C10_bitmap_invariants_fail_on_full_range :
    BallRange.new 0 255 = Except.ok ⟨0, 255⟩ ∧
    generate_ticketkey_vec_bitmap ⟨0, 255⟩ 1 [0] = Outcome.panic ∧
    generate_ticketkey_u64_bitmap ⟨0, 255⟩ 1 [64] = Outcome.panic :=
  ⟨rfl, rfl, rfl⟩

/-! ## Support lemmas for the batch generator (C2) -/

/-- Unfolding equation for `bitmap_sample_loop` on an empty tape. -/
theorem bitmap_sample_loop_nil (width min picks bitmap count : Nat) :
    bitmap_sample_loop width min picks bitmap count [] =
      if picks ≤ count then .ok (bitmap, ([] : List Nat)) else .diverge := rfl

/-- Unfolding equation for `bitmap_sample_loop` on a non-empty tape. -/
theorem bitmap_sample_loop_cons (width min picks bitmap count t : Nat) (ts : List Nat) :
    bitmap_sample_loop width min picks bitmap count (t :: ts) =
      if picks ≤ count then .ok (bitmap, t :: ts)
      else if t % 256 < min then .panic
      else if width ≤ t % 256 - min then .panic
      else if bitmap.testBit (t % 256 - min) then
        bitmap_sample_loop width min picks bitmap count ts
      else
        bitmap_sample_loop width min picks (bitmap ||| 2 ^ (t % 256 - min))
          (count + 1) ts := rfl

/-- Unfolding equation for `vec_sample_loop` on an empty tape. -/
theorem vec_sample_loop_nil (min picks : Nat) (bitmap : List Nat) (count : Nat) :
    vec_sample_loop min picks bitmap count [] =
      if picks ≤ count then .ok (bitmap, ([] : List Nat)) else .diverge := rfl

/-- Unfolding equation for `vec_sample_loop` on a non-empty tape. -/
theorem vec_sample_loop_cons (min picks : Nat) (bitmap : List Nat) (count t : Nat)
    (ts : List Nat) :
    vec_sample_loop min picks bitmap count (t :: ts) =
      if picks ≤ count then .ok (bitmap, t :: ts)
      else if t % 256 < min then .panic
      else if (t % 256 - min) / 64 < bitmap.length then
        if bitmap.getD ((t % 256 - min) / 64) 0 &&& 2 ^ ((t % 256 - min) % 64) ≠ 0 then
          vec_sample_loop min picks bitmap count ts
        else
          vec_sample_loop min picks
            (bitmap.set ((t % 256 - min) / 64)
              (bitmap.getD ((t % 256 - min) / 64) 0 ||| 2 ^ ((t % 256 - min) % 64)))
            (count + 1) ts
      else .panic := rfl

/-- Unfolding equation for `ball_values` on a non-empty offset list. -/
theorem ball_values_cons (min o : Nat) (rest : List Nat) :
    ball_values min (o :: rest) =
      if 256 ≤ min + o % 256 then .panic
      else
        match ball_values min rest with
        | .ok balls => .ok ((min + o % 256) :: balls)
        | .err e => .err e
        | .panic => .panic
        | .diverge => .diverge := rfl

theorem mem_set_bits (width b i : Nat) :
    i ∈ set_bits width b ↔ i < width ∧ b.testBit i = true := by
  unfold set_bits
  rw [List.mem_filter, List.mem_range]

theorem set_bits_pairwise (width b : Nat) :
    (set_bits width b).Pairwise (· < ·) :=
  (List.pairwise_lt_range width).filter _

theorem count_ones_zero (width : Nat) : count_ones width 0 = 0 := by
  unfold count_ones set_bits
  simp

/-- Counting a filter after enabling one extra position. -/
theorem length_filter_or_mem (l : List Nat) (pos : Nat) (p : Nat → Bool)
    (hnd : l.Nodup) (hmem : pos ∈ l) (hp : p pos = false) :
    (l.filter (fun i => p i || decide (i = pos))).length = (l.filter p).length + 1 := by
  induction l with
  | nil => cases hmem
  | cons a t ih =>
    rw [List.nodup_cons] at hnd
    by_cases ha : a = pos
    · subst ha
      have ht : t.filter (fun i => p i || decide (i = a)) = t.filter p := by
        apply List.filter_congr
        intro i hi
        have hne : i ≠ a := fun h => hnd.1 (h ▸ hi)
        simp [hne]
      simp [List.filter_cons, hp, ht]
    · have hmem' : pos ∈ t := by
        rcases List.mem_cons.mp hmem with h | h
        · exact absurd h.symm ha
        · exact h
      have ih' := ih hnd.2 hmem'
      by_cases hpa : p a = true
      · simp [List.filter_cons, hpa, ha, ih']
      · simp [List.filter_cons, hpa, ha, ih']

/-- Setting a fresh bit below `width` increments `count_ones`. -/
theorem count_ones_or_pow (width b pos : Nat) (hp : pos < width)
    (hb : b.testBit pos = false) :
    count_ones width (b ||| 2 ^ pos) = count_ones width b + 1 := by
  unfold count_ones set_bits
  have heq : (List.range width).filter (fun i => (b ||| 2 ^ pos).testBit i) =
      (List.range width).filter (fun i => b.testBit i || decide (i = pos)) := by
    apply List.filter_congr
    intro i _
    rw [Nat.testBit_lor, Nat.testBit_two_pow]
    cases hbi : b.testBit i <;> simp [eq_comm]
  rw [heq]
  exact length_filter_or_mem _ _ _ (List.nodup_range width) (List.mem_range.mpr hp) hb

theorem testBit_false_of_and_pow_eq_zero (w bit : Nat) (h : w &&& 2 ^ bit = 0) :
    w.testBit bit = false := by
  by_contra hb
  rw [Bool.not_eq_false] at hb
  have hc : (w &&& 2 ^ bit).testBit bit = true := by
    rw [Nat.testBit_land, hb, Nat.testBit_two_pow_self]
    rfl
  rw [h, Nat.zero_testBit] at hc
  cases hc

theorem testBit_false_of_ge (b width i : Nat) (hb : b < 2 ^ width) (hi : width ≤ i) :
    b.testBit i = false :=
  Nat.testBit_lt_two_pow
    (lt_of_lt_of_le hb (Nat.pow_le_pow_right (by norm_num) hi))

/-- A word that passes the `w & !((1 << sz) - 1) == 0` debug assertion has all
its set bits strictly below `sz` (for `sz < width`, `w < 2 ^ width`). -/
theorem bits_below_of_masked (width sz b : Nat) (hb : b < 2 ^ width)
    (_hszw : sz < width)
    (hm : b &&& ((2 ^ width - 1) ^^^ (2 ^ sz - 1)) = 0) :
    ∀ i, b.testBit i = true → i < sz := by
  intro i hi
  by_contra hge
  push_neg at hge
  by_cases hiw : i < width
  · have hmaskbit : ((2 ^ width - 1) ^^^ (2 ^ sz - 1)).testBit i = true := by
      rw [Nat.testBit_xor, Nat.testBit_two_pow_sub_one, Nat.testBit_two_pow_sub_one]
      simp [hiw, Nat.not_lt.mpr hge]
    have hc : (b &&& ((2 ^ width - 1) ^^^ (2 ^ sz - 1))).testBit i = true := by
      rw [Nat.testBit_land, hi, hmaskbit]
      rfl
    rw [hm, Nat.zero_testBit] at hc
    cases hc
  · rw [testBit_false_of_ge b width i hb (by omega)] at hi
    cases hi

/-- Two `width`-bit words with the same set-bit list are equal. -/
theorem set_bits_inj (width b1 b2 : Nat) (h1 : b1 < 2 ^ width) (h2 : b2 < 2 ^ width)
    (h : set_bits width b1 = set_bits width b2) : b1 = b2 := by
  apply Nat.eq_of_testBit_eq
  intro i
  by_cases hi : i < width
  · have hmem : (i ∈ set_bits width b1) ↔ (i ∈ set_bits width b2) := by rw [h]
    rw [mem_set_bits, mem_set_bits] at hmem
    cases hb1 : b1.testBit i <;> cases hb2 : b2.testBit i <;> simp_all
  · rw [testBit_false_of_ge b1 width i h1 (by omega),
      testBit_false_of_ge b2 width i h2 (by omega)]

/-- Invariant of the fixed-width sampling loop: starting from a word below
`2 ^ width` whose bit count matches `count ≤ picks`, a successful exit yields
a word below `2 ^ width` with exactly `picks` set bits. -/
theorem bitmap_sample_loop_ok_inv (width min picks : Nat) :
    ∀ (tape : List Nat) (bitmap count b : Nat) (rest : List Nat),
      bitmap < 2 ^ width →
      count_ones width bitmap = count →
      count ≤ picks →
      bitmap_sample_loop width min picks bitmap count tape = .ok (b, rest) →
      b < 2 ^ width ∧ count_ones width b = picks := by
  intro tape
  induction tape with
  | nil =>
    intro bitmap count b rest h1 h2 h3 h
    rw [bitmap_sample_loop_nil] at h
    by_cases hc : picks ≤ count
    · rw [if_pos hc] at h
      cases h
      exact ⟨h1, by omega⟩
    · rw [if_neg hc] at h
      cases h
  | cons t ts ih =>
    intro bitmap count b rest h1 h2 h3 h
    rw [bitmap_sample_loop_cons] at h
    by_cases hc : picks ≤ count
    · rw [if_pos hc] at h
      cases h
      exact ⟨h1, by omega⟩
    · rw [if_neg hc] at h
      by_cases hv : t % 256 < min
      · rw [if_pos hv] at h
        cases h
      · rw [if_neg hv] at h
        by_cases hw : width ≤ t % 256 - min
        · rw [if_pos hw] at h
          cases h
        · rw [if_neg hw] at h
          by_cases hbit : bitmap.testBit (t % 256 - min)
          · rw [if_pos hbit] at h
            exact ih bitmap count b rest h1 h2 (by omega) h
          · rw [if_neg hbit] at h
            have hpos : t % 256 - min < width := by omega
            have h1' : bitmap ||| 2 ^ (t % 256 - min) < 2 ^ width :=
              Nat.or_lt_two_pow h1 (Nat.pow_lt_pow_right (by norm_num) hpos)
            have h2' : count_ones width (bitmap ||| 2 ^ (t % 256 - min)) = count + 1 := by
              rw [count_ones_or_pow width bitmap _ hpos
                (Bool.not_eq_true _ ▸ hbit), h2]
            exact ih _ _ b rest h1' h2' (by omega) h

/-- An element of `l.set i a` is an element of `l` or is `a`. -/
theorem mem_of_mem_set {α : Type} (l : List α) (i : Nat) (a x : α)
    (h : x ∈ l.set i a) : x ∈ l ∨ x = a := by
  induction l generalizing i with
  | nil => cases h
  | cons b t ih =>
    cases i with
    | zero =>
      rcases List.mem_cons.mp h with h | h
      · right; exact h
      · left; exact List.mem_cons_of_mem b h
    | succ i =>
      rcases List.mem_cons.mp h with h | h
      · left; exact h ▸ List.mem_cons_self b t
      · rcases ih i h with h' | h'
        · left; exact List.mem_cons_of_mem b h'
        · right; exact h'

/-- Updating one entry changes a mapped sum by exactly the difference at that
entry, stated additively. -/
theorem sum_map_set (f : Nat → Nat) (l : List Nat) :
    ∀ (i a : Nat), i < l.length →
      ((l.set i a).map f).sum + f (l.getD i 0) = (l.map f).sum + f a := by
  induction l with
  | nil =>
    intro i a h
    cases h
  | cons b t ih =>
    intro i a h
    cases i with
    | zero =>
      simp [List.set]
      omega
    | succ i =>
      have ht := ih i a (by simpa using h)
      simp only [List.set, List.map_cons, List.sum_cons, List.getD_cons_succ]
      omega

/-- Invariant of the `Vec<u64>` sampling loop: word count, per-word width
bound and the total bit count are carried to a successful exit. -/
theorem vec_sample_loop_ok_inv (min picks : Nat) :
    ∀ (tape ws : List Nat) (count : Nat) (out rest : List Nat),
      (∀ w ∈ ws, w < 2 ^ 64) →
      (ws.map (count_ones 64)).sum = count →
      count ≤ picks →
      vec_sample_loop min picks ws count tape = .ok (out, rest) →
      out.length = ws.length ∧ (∀ w ∈ out, w < 2 ^ 64) ∧
        (out.map (count_ones 64)).sum = picks := by
  intro tape
  induction tape with
  | nil =>
    intro ws count out rest h1 h2 h3 h
    rw [vec_sample_loop_nil] at h
    by_cases hc : picks ≤ count
    · rw [if_pos hc] at h
      cases h
      exact ⟨rfl, h1, by omega⟩
    · rw [if_neg hc] at h
      cases h
  | cons t ts ih =>
    intro ws count out rest h1 h2 h3 h
    rw [vec_sample_loop_cons] at h
    by_cases hc : picks ≤ count
    · rw [if_pos hc] at h
      cases h
      exact ⟨rfl, h1, by omega⟩
    · rw [if_neg hc] at h
      by_cases hv : t % 256 < min
      · rw [if_pos hv] at h
        cases h
      · rw [if_neg hv] at h
        by_cases hidx : (t % 256 - min) / 64 < ws.length
        · rw [if_pos hidx] at h
          have hwordmem : ws.getD ((t % 256 - min) / 64) 0 ∈ ws := by
            rw [List.getD_eq_getElem ws 0 hidx]
            exact List.getElem_mem hidx
          have hword : ws.getD ((t % 256 - min) / 64) 0 < 2 ^ 64 := h1 _ hwordmem
          by_cases hdup :
              ws.getD ((t % 256 - min) / 64) 0 &&& 2 ^ ((t % 256 - min) % 64) ≠ 0
          · rw [if_pos hdup] at h
            exact ih ws count out rest h1 h2 (by omega) h
          · rw [if_neg hdup] at h
            push_neg at hdup
            have hbitfree : (ws.getD ((t % 256 - min) / 64) 0).testBit
                ((t % 256 - min) % 64) = false :=
              testBit_false_of_and_pow_eq_zero _ _ hdup
            have hbitlt : (t % 256 - min) % 64 < 64 := Nat.mod_lt _ (by norm_num)
            have hw' : ws.getD ((t % 256 - min) / 64) 0 ||| 2 ^ ((t % 256 - min) % 64)
                < 2 ^ 64 :=
              Nat.or_lt_two_pow hword (Nat.pow_lt_pow_right (by norm_num) hbitlt)
            have h1' : ∀ w ∈ ws.set ((t % 256 - min) / 64)
                (ws.getD ((t % 256 - min) / 64) 0 ||| 2 ^ ((t % 256 - min) % 64)),
                w < 2 ^ 64 := by
              intro w hmem
              rcases mem_of_mem_set _ _ _ _ hmem with hmem' | hmem'
              · exact h1 w hmem'
              · rw [hmem']
                exact hw'
            have hsum := sum_map_set (count_ones 64) ws ((t % 256 - min) / 64)
              (ws.getD ((t % 256 - min) / 64) 0 ||| 2 ^ ((t % 256 - min) % 64)) hidx
            have hcount : count_ones 64
                (ws.getD ((t % 256 - min) / 64) 0 ||| 2 ^ ((t % 256 - min) % 64)) =
                count_ones 64 (ws.getD ((t % 256 - min) / 64) 0) + 1 :=
              count_ones_or_pow 64 _ _ hbitlt hbitfree
            have h2' : ((ws.set ((t % 256 - min) / 64)
                (ws.getD ((t % 256 - min) / 64) 0 ||| 2 ^ ((t % 256 - min) % 64))).map
                  (count_ones 64)).sum = count + 1 := by omega
            have hlen := ih _ _ out rest h1' h2' (by omega) h
            rwa [List.length_set] at hlen
        · rw [if_neg hidx] at h
          cases h

theorem generate_u64_good (r : BallRange) (picks : Nat) (tape : List Nat)
    (key : TicketKey) (rest : List Nat)
    (h : generate_ticketkey_u64_bitmap r picks tape = .ok (key, rest)) :
    ∃ b, key = .U64 b ∧ GoodU64 r picks b ∧ r.size ≤ 64 := by
  unfold generate_ticketkey_u64_bitmap at h
  by_cases hs : 64 < r.size
  · rw [if_pos hs] at h
    cases h
  · rw [if_neg hs] at h
    cases hl : bitmap_sample_loop 64 r.start picks 0 0 tape with
    | ok val =>
      obtain ⟨bitmap, rest'⟩ := val
      simp only [hl] at h
      by_cases hc : count_ones 64 bitmap ≠ picks
      · rw [if_pos hc] at h
        cases h
      · rw [if_neg hc] at h
        push_neg at hc
        by_cases hm : bitmap &&&
            ((2 ^ 64 - 1) ^^^ (if r.size = 64 then 2 ^ 64 - 1 else 2 ^ r.size - 1)) ≠ 0
        · rw [if_pos hm] at h
          cases h
        · rw [if_neg hm] at h
          push_neg at hm
          cases h
          have hinv := bitmap_sample_loop_ok_inv 64 r.start picks tape 0 0 bitmap rest
            (Nat.two_pow_pos 64) (count_ones_zero 64) (Nat.zero_le picks) hl
          refine ⟨bitmap, rfl, ⟨hinv.1, ?_, hinv.2⟩, by omega⟩
          intro i hi
          by_cases hsz : r.size = 64
          · rw [hsz]
            by_contra hge
            push_neg at hge
            rw [testBit_false_of_ge bitmap 64 i hinv.1 hge] at hi
            cases hi
          · rw [if_neg hsz] at hm
            exact bits_below_of_masked 64 r.size bitmap hinv.1 (by omega) hm i hi
    | err e =>
      simp only [hl] at h
      cases h
    | panic =>
      simp only [hl] at h
      cases h
    | diverge =>
      simp only [hl] at h
      cases h

theorem generate_u128_good (r : BallRange) (picks : Nat) (tape : List Nat)
    (key : TicketKey) (rest : List Nat)
    (h : generate_ticketkey_u128_bitmap r picks tape = .ok (key, rest)) :
    ∃ b, key = .U128 b ∧ GoodU128 r picks b ∧ r.size ≤ 128 := by
  unfold generate_ticketkey_u128_bitmap at h
  by_cases hs : 128 < r.size
  · rw [if_pos hs] at h
    cases h
  · rw [if_neg hs] at h
    cases hl : bitmap_sample_loop 128 r.start picks 0 0 tape with
    | ok val =>
      obtain ⟨bitmap, rest'⟩ := val
      simp only [hl] at h
      by_cases hc : count_ones 128 bitmap ≠ picks
      · rw [if_pos hc] at h
        cases h
      · rw [if_neg hc] at h
        push_neg at hc
        by_cases hm : bitmap &&&
            ((2 ^ 128 - 1) ^^^ (if r.size = 128 then 2 ^ 128 - 1 else 2 ^ r.size - 1)) ≠ 0
        · rw [if_pos hm] at h
          cases h
        · rw [if_neg hm] at h
          push_neg at hm
          cases h
          have hinv := bitmap_sample_loop_ok_inv 128 r.start picks tape 0 0 bitmap rest
            (Nat.two_pow_pos 128) (count_ones_zero 128) (Nat.zero_le picks) hl
          refine ⟨bitmap, rfl, ⟨hinv.1, ?_, hinv.2⟩, by omega⟩
          intro i hi
          by_cases hsz : r.size = 128
          · rw [hsz]
            by_contra hge
            push_neg at hge
            rw [testBit_false_of_ge bitmap 128 i hinv.1 hge] at hi
            cases hi
          · rw [if_neg hsz] at hm
            exact bits_below_of_masked 128 r.size bitmap hinv.1 (by omega) hm i hi
    | err e =>
      simp only [hl] at h
      cases h
    | panic =>
      simp only [hl] at h
      cases h
    | diverge =>
      simp only [hl] at h
      cases h

/-- All set offsets of the word vector lie below `size`, given the word-count
bound, the per-word width bound, and (when `size % 64 > 0`) the last-word
assertion. -/
theorem vec_offsets_below (size : Nat) (ws : List Nat)
    (hlen : ws.length = (size + 63) / 64)
    (hwords : ∀ w ∈ ws, w < 2 ^ 64)
    (hlast : 0 < size % 64 →
      ∀ bit, (ws.getD ((size + 63) / 64 - 1) 0).testBit bit = true → bit < size % 64) :
    ∀ j bit, (ws.getD j 0).testBit bit = true → j * 64 + bit < size := by
  intro j bit hbit
  by_cases hj : j < ws.length
  · have hw : ws.getD j 0 < 2 ^ 64 := by
      rw [List.getD_eq_getElem ws 0 hj]
      exact hwords _ (List.getElem_mem hj)
    have hbit64 : bit < 64 := by
      by_contra hge
      push_neg at hge
      rw [testBit_false_of_ge _ 64 bit hw hge] at hbit
      cases hbit
    by_cases hjlast : j + 1 < ws.length
    · omega
    · by_cases hrem : 0 < size % 64
      · have hj' : j = (size + 63) / 64 - 1 := by omega
        have hb' := hlast hrem bit (by rw [← hj']; exact hbit)
        omega
      · omega
  · rw [List.getD_eq_default _ _ (by omega), Nat.zero_testBit] at hbit
    cases hbit

theorem generate_vec_good (r : BallRange) (picks : Nat) (tape : List Nat)
    (key : TicketKey) (rest : List Nat)
    (h : generate_ticketkey_vec_bitmap r picks tape = .ok (key, rest)) :
    ∃ ws, key = .VecU64 ws ∧ GoodVec r picks ws := by
  unfold generate_ticketkey_vec_bitmap at h
  cases hl : vec_sample_loop r.start picks (List.replicate ((r.size + 63) / 64) 0) 0 tape with
  | ok val =>
    obtain ⟨ws, rest'⟩ := val
    simp only [hl] at h
    have hrep1 : ∀ w ∈ List.replicate ((r.size + 63) / 64) (0 : Nat), w < 2 ^ 64 := by
      intro w hw
      rw [List.eq_of_mem_replicate hw]
      exact Nat.two_pow_pos 64
    have hrep2 : ((List.replicate ((r.size + 63) / 64) (0 : Nat)).map
        (count_ones 64)).sum = 0 := by
      simp [count_ones_zero]
    have hinv := vec_sample_loop_ok_inv r.start picks tape _ 0 ws rest'
      hrep1 hrep2 (Nat.zero_le _) hl
    have hlen : ws.length = (r.size + 63) / 64 := by
      have := hinv.1
      rwa [List.length_replicate] at this
    have hwords := hinv.2.1
    by_cases hc : (ws.map (count_ones 64)).sum ≠ picks
    · rw [if_pos hc] at h
      cases h
    · rw [if_neg hc] at h
      push_neg at hc
      by_cases hrem : 0 < r.size % 64
      · rw [if_pos hrem] at h
        by_cases hbound : (r.size + 63) / 64 - 1 < ws.length
        · rw [if_pos hbound] at h
          by_cases hmask : ws.getD ((r.size + 63) / 64 - 1) 0 &&&
              ((2 ^ 64 - 1) ^^^ (2 ^ (r.size % 64) - 1)) ≠ 0
          · rw [if_pos hmask] at h
            cases h
          · rw [if_neg hmask] at h
            push_neg at hmask
            cases h
            refine ⟨ws, rfl, hlen, hwords, ?_, hc⟩
            apply vec_offsets_below r.size ws hlen hwords
            intro _ bit hbit
            have hwlast : ws.getD ((r.size + 63) / 64 - 1) 0 < 2 ^ 64 := by
              rw [List.getD_eq_getElem ws 0 hbound]
              exact hwords _ (List.getElem_mem hbound)
            exact bits_below_of_masked 64 (r.size % 64) _ hwlast
              (Nat.mod_lt _ (by norm_num)) hmask bit hbit
        · rw [if_neg hbound] at h
          cases h
      · rw [if_neg hrem] at h
        cases h
        refine ⟨ws, rfl, hlen, hwords, ?_, hc⟩
        apply vec_offsets_below r.size ws hlen hwords
        intro hrem'
        omega
  | err e =>
    simp only [hl] at h
    cases h
  | panic =>
    simp only [hl] at h
    cases h
  | diverge =>
    simp only [hl] at h
    cases h

theorem ball_values_ok (min : Nat) (offs : List Nat)
    (h : ∀ o ∈ offs, o < 256 ∧ min + o < 256) :
    ball_values min offs = .ok (offs.map (fun o => min + o)) := by
  induction offs with
  | nil => rfl
  | cons o rest ih =>
    obtain ⟨ho1, ho2⟩ := h o (List.mem_cons_self o rest)
    rw [ball_values_cons, Nat.mod_eq_of_lt ho1, if_neg (by omega),
      ih (fun x hx => h x (List.mem_cons_of_mem o hx))]
    rfl

theorem vec_set_offsets_cons (w : Nat) (ws : List Nat) (idx : Nat) :
    vec_set_offsets (w :: ws) idx =
      (set_bits 64 w).map (fun bit => idx * 64 + bit) ++ vec_set_offsets ws (idx + 1) := rfl

theorem length_vec_set_offsets (ws : List Nat) : ∀ idx,
    (vec_set_offsets ws idx).length = (ws.map (count_ones 64)).sum := by
  induction ws with
  | nil => intro idx; rfl
  | cons w ws ih =>
    intro idx
    rw [vec_set_offsets_cons, List.length_append, List.length_map, ih]
    rfl

theorem mem_vec_set_offsets (ws : List Nat) : ∀ (idx0 o : Nat),
    o ∈ vec_set_offsets ws idx0 ↔
      ∃ j bit, bit < 64 ∧ (ws.getD j 0).testBit bit = true ∧
        o = (idx0 + j) * 64 + bit := by
  induction ws with
  | nil =>
    intro idx0 o
    constructor
    · intro h
      cases h
    · rintro ⟨j, bit, _, ht, rfl⟩
      rw [List.getD_eq_default _ _ (Nat.zero_le j), Nat.zero_testBit] at ht
      cases ht
  | cons w ws ih =>
    intro idx0 o
    rw [vec_set_offsets_cons, List.mem_append, List.mem_map, ih (idx0 + 1) o]
    constructor
    · rintro (⟨bit, hmem, rfl⟩ | ⟨j, bit, hb, ht, rfl⟩)
      · rw [mem_set_bits] at hmem
        exact ⟨0, bit, hmem.1, by simpa using hmem.2, by omega⟩
      · exact ⟨j + 1, bit, hb, by simpa using ht, by omega⟩
    · rintro ⟨j, bit, hb, ht, rfl⟩
      cases j with
      | zero =>
        left
        exact ⟨bit, (mem_set_bits _ _ _).mpr ⟨hb, by simpa using ht⟩, by omega⟩
      | succ j =>
        right
        exact ⟨j, bit, hb, by simpa using ht, by omega⟩

theorem vec_set_offsets_pairwise (ws : List Nat) : ∀ idx0,
    (vec_set_offsets ws idx0).Pairwise (· < ·) := by
  induction ws with
  | nil => intro idx0; exact List.Pairwise.nil
  | cons w ws ih =>
    intro idx0
    rw [vec_set_offsets_cons, List.pairwise_append]
    refine ⟨?_, ih (idx0 + 1), ?_⟩
    · exact List.pairwise_map.mpr ((set_bits_pairwise 64 w).imp (fun h => by omega))
    · intro a ha b hb
      rw [List.mem_map] at ha
      obtain ⟨bita, hma, rfl⟩ := ha
      rw [mem_set_bits] at hma
      rw [mem_vec_set_offsets] at hb
      obtain ⟨j, bitb, hbb, _, rfl⟩ := hb
      have := hma.1
      omega

theorem getD_lt_two_pow (ws : List Nat) (hws : ∀ w ∈ ws, w < 2 ^ 64) (j : Nat) :
    ws.getD j 0 < 2 ^ 64 := by
  by_cases hj : j < ws.length
  · rw [List.getD_eq_getElem ws 0 hj]
    exact hws _ (List.getElem_mem hj)
  · rw [List.getD_eq_default _ _ (by omega)]
    exact Nat.two_pow_pos 64

theorem to_balls_u64_ok (r : BallRange) (picks b : Nat)
    (hg : GoodU64 r picks b) (h256 : r.start + r.size ≤ 256) :
    TicketKey.to_balls (.U64 b) r =
      .ok ((set_bits 64 b).map (fun o => r.start + o)) := by
  show ball_values r.start (set_bits 64 b) = _
  apply ball_values_ok
  intro o ho
  rw [mem_set_bits] at ho
  have := hg.2.1 o ho.2
  omega

theorem to_balls_u128_ok (r : BallRange) (picks b : Nat)
    (hg : GoodU128 r picks b) (h256 : r.start + r.size ≤ 256) :
    TicketKey.to_balls (.U128 b) r =
      .ok ((set_bits 128 b).map (fun o => r.start + o)) := by
  show ball_values r.start (set_bits 128 b) = _
  apply ball_values_ok
  intro o ho
  rw [mem_set_bits] at ho
  have := hg.2.1 o ho.2
  omega

theorem to_balls_vec_ok (r : BallRange) (picks : Nat) (ws : List Nat)
    (hg : GoodVec r picks ws) (h256 : r.start + r.size ≤ 256) :
    TicketKey.to_balls (.VecU64 ws) r =
      .ok ((vec_set_offsets ws 0).map (fun o => r.start + o)) := by
  show ball_values r.start (vec_set_offsets ws 0) = _
  apply ball_values_ok
  intro o ho
  rw [mem_vec_set_offsets] at ho
  obtain ⟨j, bit, hb, ht, rfl⟩ := ho
  have := hg.2.2.1 j bit ht
  omega

/-- Each good key decodes to a sorted, in-range ball list of length `picks`. -/
theorem good_key_to_balls (r : BallRange) (picks : Nat) (strategy : BitwiseStrategy)
    (k : TicketKey) (hg : GoodKey r picks strategy k)
    (hss : r.start + r.size ≤ r.stop + 1) (hstop : r.stop ≤ 255) :
    ∃ l, k.to_balls r = .ok l ∧ l.length = picks ∧ l.Pairwise (· < ·) ∧
      ∀ v ∈ l, r.start ≤ v ∧ v ≤ r.stop := by
  have h256 : r.start + r.size ≤ 256 := by omega
  cases strategy with
  | U64 =>
    cases k with
    | U64 b =>
      refine ⟨_, to_balls_u64_ok r picks b hg h256, ?_, ?_, ?_⟩
      · rw [List.length_map]
        exact hg.2.2
      · exact List.pairwise_map.mpr ((set_bits_pairwise 64 b).imp (fun h => by omega))
      · intro v hv
        rw [List.mem_map] at hv
        obtain ⟨o, ho, rfl⟩ := hv
        rw [mem_set_bits] at ho
        have := hg.2.1 o ho.2
        omega
    | U128 b => exact hg.elim
    | VecU64 ws => exact hg.elim
  | U128 =>
    cases k with
    | U64 b => exact hg.elim
    | U128 b =>
      refine ⟨_, to_balls_u128_ok r picks b hg h256, ?_, ?_, ?_⟩
      · rw [List.length_map]
        exact hg.2.2
      · exact List.pairwise_map.mpr ((set_bits_pairwise 128 b).imp (fun h => by omega))
      · intro v hv
        rw [List.mem_map] at hv
        obtain ⟨o, ho, rfl⟩ := hv
        rw [mem_set_bits] at ho
        have := hg.2.1 o ho.2
        omega
    | VecU64 ws => exact hg.elim
  | VecU64 =>
    cases k with
    | U64 b => exact hg.elim
    | U128 b => exact hg.elim
    | VecU64 ws =>
      refine ⟨_, to_balls_vec_ok r picks ws hg h256, ?_, ?_, ?_⟩
      · rw [List.length_map, length_vec_set_offsets]
        exact hg.2.2.2
      · exact List.pairwise_map.mpr
          ((vec_set_offsets_pairwise ws 0).imp (fun h => by omega))
      · intro v hv
        rw [List.mem_map] at hv
        obtain ⟨o, ho, rfl⟩ := hv
        rw [mem_vec_set_offsets] at ho
        obtain ⟨j, bit, hb, ht, rfl⟩ := ho
        have := hg.2.2.1 j bit ht
        omega

/-- Within one strategy, `to_balls` is injective on good keys: distinct keys
give distinct ball lists. -/
theorem good_key_to_balls_inj (r : BallRange) (picks : Nat)
    (strategy : BitwiseStrategy) (k1 k2 : TicketKey)
    (h1 : GoodKey r picks strategy k1) (h2 : GoodKey r picks strategy k2)
    (hss : r.start + r.size ≤ r.stop + 1) (hstop : r.stop ≤ 255)
    (heq : k1.to_balls r = k2.to_balls r) : k1 = k2 := by
  have h256 : r.start + r.size ≤ 256 := by omega
  have hinj : Function.Injective (fun o => r.start + o) :=
    fun a b h => Nat.add_left_cancel h
  cases strategy with
  | U64 =>
    cases k1 with
    | U64 b1 =>
      cases k2 with
      | U64 b2 =>
        rw [to_balls_u64_ok r picks b1 h1 h256,
          to_balls_u64_ok r picks b2 h2 h256] at heq
        injection heq with heq'
        have hsb := List.map_injective_iff.mpr hinj heq'
        rw [set_bits_inj 64 b1 b2 h1.1 h2.1 hsb]
      | U128 b2 => exact h2.elim
      | VecU64 ws2 => exact h2.elim
    | U128 b1 => exact h1.elim
    | VecU64 ws1 => exact h1.elim
  | U128 =>
    cases k1 with
    | U64 b1 => exact h1.elim
    | U128 b1 =>
      cases k2 with
      | U64 b2 => exact h2.elim
      | U128 b2 =>
        rw [to_balls_u128_ok r picks b1 h1 h256,
          to_balls_u128_ok r picks b2 h2 h256] at heq
        injection heq with heq'
        have hsb := List.map_injective_iff.mpr hinj heq'
        rw [set_bits_inj 128 b1 b2 h1.1 h2.1 hsb]
      | VecU64 ws2 => exact h2.elim
    | VecU64 ws1 => exact h1.elim
  | VecU64 =>
    cases k1 with
    | U64 b1 => exact h1.elim
    | U128 b1 => exact h1.elim
    | VecU64 ws1 =>
      cases k2 with
      | U64 b2 => exact h2.elim
      | U128 b2 => exact h2.elim
      | VecU64 ws2 =>
        rw [to_balls_vec_ok r picks ws1 h1 h256,
          to_balls_vec_ok r picks ws2 h2 h256] at heq
        injection heq with heq'
        have hoff : vec_set_offsets ws1 0 = vec_set_offsets ws2 0 :=
          List.map_injective_iff.mpr hinj heq'
        have hword : ∀ j, ws1.getD j 0 = ws2.getD j 0 := by
          intro j
          apply Nat.eq_of_testBit_eq
          intro bit
          by_cases hbit : bit < 64
          · have huniq : ∀ ws : List Nat,
                ((ws.getD j 0).testBit bit = true) ↔
                  (j * 64 + bit ∈ vec_set_offsets ws 0) := by
              intro ws
              rw [mem_vec_set_offsets]
              constructor
              · intro ht
                exact ⟨j, bit, hbit, ht, by omega⟩
              · rintro ⟨j2, bit2, hb2, ht2, heq2⟩
                have hu : j2 = j ∧ bit2 = bit := by omega
                rw [← hu.1, ← hu.2]
                exact ht2
            have e1 := huniq ws1
            have e2 := huniq ws2
            rw [hoff] at e1
            exact Bool.eq_iff_iff.mpr (e1.trans e2.symm)
          · rw [testBit_false_of_ge _ 64 bit (getD_lt_two_pow ws1 h1.2.1 j) (by omega),
              testBit_false_of_ge _ 64 bit (getD_lt_two_pow ws2 h2.2.1 j) (by omega)]
        have hlen : ws1.length = ws2.length := by
          rw [h1.1, h2.1]
        have hws : ws1 = ws2 := by
          apply List.ext_getElem hlen
          intro i hi1 hi2
          have hw := hword i
          rwa [List.getD_eq_getElem ws1 0 hi1, List.getD_eq_getElem ws2 0 hi2] at hw
        rw [hws]

theorem generate_for_good (strategy : BitwiseStrategy) (r : BallRange) (pick : Nat)
    (tape : List Nat) (key : TicketKey) (rest : List Nat)
    (h : generate_ticketkey_for strategy r pick tape = .ok (key, rest)) :
    GoodKey r pick strategy key := by
  cases strategy with
  | U64 =>
    obtain ⟨b, rfl, hg, _⟩ := generate_u64_good r pick tape key rest h
    exact hg
  | U128 =>
    obtain ⟨b, rfl, hg, _⟩ := generate_u128_good r pick tape key rest h
    exact hg
  | VecU64 =>
    obtain ⟨ws, rfl, hg⟩ := generate_vec_good r pick tape key rest h
    exact hg

/-- Unfolding equation for `unique_sample_loop`, exhausted budget. -/
theorem unique_sample_loop_zero (r : BallRange) (pick game_count : Nat)
    (strategy : BitwiseStrategy) (keys : List TicketKey) (tape : List Nat) :
    unique_sample_loop r pick game_count strategy keys tape 0 =
      if game_count ≤ keys.length then .ok keys
      else .err (.UniqueGenerationFailed game_count keys.length) := rfl

/-- Unfolding equation for `unique_sample_loop`, remaining budget. -/
theorem unique_sample_loop_succ (r : BallRange) (pick game_count : Nat)
    (strategy : BitwiseStrategy) (keys : List TicketKey) (tape : List Nat)
    (b : Nat) :
    unique_sample_loop r pick game_count strategy keys tape (b + 1) =
      if game_count ≤ keys.length then .ok keys
      else
        match generate_ticketkey_for strategy r pick tape with
        | .ok (key, rest) =>
          unique_sample_loop r pick game_count strategy (keys.insert key) rest b
        | .err e => .err e
        | .panic => .panic
        | .diverge => .diverge := rfl

/-- The batch sampling loop: a successful exit holds exactly `game_count`
pairwise-distinct good keys. -/
theorem unique_sample_loop_ok (r : BallRange) (pick game_count : Nat)
    (strategy : BitwiseStrategy) :
    ∀ (budget : Nat) (keys : List TicketKey) (tape : List Nat)
      (out : List TicketKey),
      (∀ k ∈ keys, GoodKey r pick strategy k) →
      keys.Nodup →
      keys.length ≤ game_count →
      unique_sample_loop r pick game_count strategy keys tape budget = .ok out →
      out.length = game_count ∧ out.Nodup ∧
        ∀ k ∈ out, GoodKey r pick strategy k := by
  intro budget
  induction budget with
  | zero =>
    intro keys tape out hgood hnd hlen h
    rw [unique_sample_loop_zero] at h
    by_cases hc : game_count ≤ keys.length
    · rw [if_pos hc] at h
      cases h
      exact ⟨by omega, hnd, hgood⟩
    · rw [if_neg hc] at h
      cases h
  | succ b ih =>
    intro keys tape out hgood hnd hlen h
    rw [unique_sample_loop_succ] at h
    by_cases hc : game_count ≤ keys.length
    · rw [if_pos hc] at h
      cases h
      exact ⟨by omega, hnd, hgood⟩
    · rw [if_neg hc] at h
      cases hg : generate_ticketkey_for strategy r pick tape with
      | ok val =>
        obtain ⟨key, rest⟩ := val
        simp only [hg] at h
        apply ih (keys.insert key) rest out ?_ hnd.insert ?_ h
        · intro k hk
          rw [List.mem_insert_iff] at hk
          rcases hk with rfl | hk
          · exact generate_for_good strategy r pick tape k rest hg
          · exact hgood k hk
        · by_cases hmem : key ∈ keys
          · rw [List.length_insert_of_mem hmem]
            omega
          · rw [List.length_insert_of_not_mem hmem]
            omega
      | err e =>
        simp only [hg] at h
        cases h
      | panic =>
        simp only [hg] at h
        cases h
      | diverge =>
        simp only [hg] at h
        cases h

/-- Unfolding equation for `tickets_from_keys`. -/
theorem tickets_from_keys_cons (k : TicketKey) (ks : List TicketKey) (r : BallRange) :
    tickets_from_keys (k :: ks) r =
      match k.to_balls r with
      | .ok balls =>
        match tickets_from_keys ks r with
        | .ok ts => .ok (Ticket.from_sorted balls :: ts)
        | .err e => .err e
        | .panic => .panic
        | .diverge => .diverge
      | .err e => .err e
      | .panic => .panic
      | .diverge => .diverge := rfl

/-- On good keys the final conversion succeeds and is the pointwise map. -/
theorem tickets_from_keys_eq_map (r : BallRange) (pick : Nat)
    (strategy : BitwiseStrategy)
    (hss : r.start + r.size ≤ r.stop + 1) (hstop : r.stop ≤ 255) :
    ∀ keys : List TicketKey, (∀ k ∈ keys, GoodKey r pick strategy k) →
      tickets_from_keys keys r =
        .ok (keys.map (fun k => Ticket.from_sorted (decode_balls k r))) := by
  intro keys
  induction keys with
  | nil => intro _; rfl
  | cons k ks ih =>
    intro hgood
    obtain ⟨l, hl, _, _, _⟩ := good_key_to_balls r pick strategy k
      (hgood k (List.mem_cons_self k ks)) hss hstop
    have hdec : decode_balls k r = l := by
      unfold decode_balls
      rw [hl]
    rw [tickets_from_keys_cons]
    simp only [hl, ih (fun x hx => hgood x (List.mem_cons_of_mem k hx))]
    rw [List.map_cons, hdec]

/-- C2: whenever `generate_unique_tickets` returns `Ok(tickets)` — for any
random tape, any `u8` range validated by `BallRange::new`, any pick count
validated by `PickCount::new` against that range, any game count validated by
`GameCount::new`, and any attempt budget — `tickets` holds exactly
`game_count` tickets, the tickets are pairwise distinct, and every ticket
consists of exactly `pick` distinct ball numbers in strictly increasing
order, each within `[range.start, range.end]`. -/
theorem C2_generate_unique_tickets_ok
    (s e p g max_attempts : Nat) (tape : List Nat)
    (r : BallRange) (pick game_count : Nat) (tickets : List Ticket)
    (hs255 : s ≤ 255) (he255 : e ≤ 255)
    (hr : BallRange.new s e = Except.ok r)
    (hp : PickCount.new p r = Except.ok pick)
    (_hg : GameCount.new g = Except.ok game_count)
    (h : generate_unique_tickets tape r pick game_count max_attempts =
      Outcome.ok tickets) :
    tickets.length = game_count ∧ tickets.Nodup ∧
      ∀ t ∈ tickets, t.balls.length = pick ∧ t.balls.Nodup ∧
        ∀ v ∈ t.balls, r.start ≤ v ∧ v ≤ r.stop := by
  have hre : r.start = s ∧ r.stop = e ∧ s < e := by
    unfold BallRange.new at hr
    by_cases hc : e ≤ s
    · rw [if_pos hc] at hr
      cases hr
    · rw [if_neg hc] at hr
      cases hr
      exact ⟨rfl, rfl, by omega⟩
  have hpe : 1 ≤ pick ∧ pick ≤ r.size := by
    unfold PickCount.new at hp
    by_cases h1 : r.size < p
    · rw [if_pos h1] at hp
      cases hp
    · rw [if_neg h1] at hp
      by_cases h2 : p = 0
      · rw [if_pos h2] at hp
        cases hp
      · rw [if_neg h2] at hp
        cases hp
        omega
  have hsize : r.size = r.stop - r.start + 1 := by
    have h1 : r.size = (r.stop - r.start + 1) % 256 := rfl
    rcases Nat.lt_or_ge (r.stop - r.start + 1) 256 with hlt | hge
    · rw [h1, Nat.mod_eq_of_lt hlt]
    · exfalso
      have h2 : r.stop - r.start + 1 = 256 := by omega
      have hz : r.size = 0 := by
        rw [h1, h2]
      omega
  have hss : r.start + r.size ≤ r.stop + 1 := by omega
  have hstop : r.stop ≤ 255 := by omega
  unfold generate_unique_tickets at h
  cases hcomb : combination r.size pick with
  | error err =>
    simp only [hcomb] at h
    cases h
  | ok max_possible =>
    simp only [hcomb] at h
    by_cases htm : max_possible < game_count
    · rw [if_pos htm] at h
      cases h
    · rw [if_neg htm] at h
      cases hsel : BitwiseStrategy.select r with
      | error err =>
        simp only [hsel] at h
        cases h
      | ok strategy =>
        simp only [hsel] at h
        cases hloop : unique_sample_loop r pick game_count strategy [] tape
          max_attempts with
        | ok ticket_keys =>
          simp only [hloop] at h
          obtain ⟨hklen, hknd, hkgood⟩ :=
            unique_sample_loop_ok r pick game_count strategy max_attempts []
              tape ticket_keys (fun k hk => absurd hk (List.not_mem_nil k))
              List.nodup_nil (Nat.zero_le game_count) hloop
          rw [tickets_from_keys_eq_map r pick strategy hss hstop ticket_keys
            hkgood] at h
          cases h
          refine ⟨?_, ?_, ?_⟩
          · rw [List.length_map]
            exact hklen
          · apply List.Nodup.map_on ?_ hknd
            intro k1 hk1 k2 hk2 heq
            obtain ⟨l1, hl1, _, _, _⟩ := good_key_to_balls r pick strategy k1
              (hkgood k1 hk1) hss hstop
            obtain ⟨l2, hl2, _, _, _⟩ := good_key_to_balls r pick strategy k2
              (hkgood k2 hk2) hss hstop
            have e1 : decode_balls k1 r = l1 := by
              unfold decode_balls
              rw [hl1]
            have e2 : decode_balls k2 r = l2 := by
              unfold decode_balls
              rw [hl2]
            have hdeq : decode_balls k1 r = decode_balls k2 r :=
              congrArg Ticket.balls heq
            apply good_key_to_balls_inj r pick strategy k1 k2 (hkgood k1 hk1)
              (hkgood k2 hk2) hss hstop
            rw [hl1, hl2, ← e1, ← e2, hdeq]
          · intro t ht
            rw [List.mem_map] at ht
            obtain ⟨k, hk, rfl⟩ := ht
            obtain ⟨l, hl, hllen, hlpw, hlmem⟩ := good_key_to_balls r pick
              strategy k (hkgood k hk) hss hstop
            have e1 : decode_balls k r = l := by
              unfold decode_balls
              rw [hl]
            refine ⟨?_, ?_, ?_⟩
            · show (decode_balls k r).length = pick
              rw [e1]
              exact hllen
            · show (decode_balls k r).Nodup
              rw [e1]
              exact hlpw.imp Nat.ne_of_lt
            · show ∀ v ∈ decode_balls k r, r.start ≤ v ∧ v ≤ r.stop
              rw [e1]
              exact hlmem
        | err err =>
          simp only [hloop] at h
          cases h
        | panic =>
          simp only [hloop] at h
          cases h
        | diverge =>
          simp only [hloop] at h
          cases h

/-- Concrete instantiation of `C2_generate_unique_tickets_ok`: range 1–5,
pick 3, two games, from the tape `[1, 2, 3, 1, 2, 4]`. -/
theorem C2_generate_unique_tickets_ok_witness :
    (Ticket.from_sorted [1, 2, 4] :: Ticket.from_sorted [1, 2, 3] :: []).length = 2 ∧
      (Ticket.from_sorted [1, 2, 4] :: Ticket.from_sorted [1, 2, 3] :: []).Nodup ∧
      ∀ t ∈ (Ticket.from_sorted [1, 2, 4] :: Ticket.from_sorted [1, 2, 3] :: []),
        t.balls.length = 3 ∧ t.balls.Nodup ∧
          ∀ v ∈ t.balls, BallRange.start ⟨1, 5⟩ ≤ v ∧ v ≤ BallRange.stop ⟨1, 5⟩ :=
  C2_generate_unique_tickets_ok 1 5 3 2 200 [1, 2, 3, 1, 2, 4] ⟨1, 5⟩ 3 2
    (Ticket.from_sorted [1, 2, 4] :: Ticket.from_sorted [1, 2, 3] :: [])
    (by decide) (by decide) (by rfl) (by rfl) (by rfl) (by rfl)
